import Mathlib

/-!
Verification of the Reflexion actor (examples/reflexion/reflexion.ipynb).

The development shallowly embeds the core logic of the notebook:

* `execute_tools` — the tool dispatcher that flattens the tool calls of the
  last (model) message into independent search invocations, executes them as
  a batch, groups the raw outputs back by originating call identifier
  (a `defaultdict(dict)` in the source), and emits one `tool` message per
  distinct identifier;
* `ResponderWithRetries.respond` — the bounded retry loop around the model
  completion client and the pydantic validator (modelled with an explicit
  heap of list objects so that the source's local rebinding
  `state = state + [HumanMessage(...)]` is distinguishable from a mutation
  of the caller's list);
* `_get_num_iterations` / `event_loop` — the suffix-scan iteration counter
  and the termination decision of the compiled graph;
* the pydantic schemas `AnswerQuestion` / `ReviseAnswer` and their
  field-level validation;
* the graph `draft -> execute_tools -> revise -> (execute_tools | END)` as a
  step function on `Node × List Message`.

Python dictionaries are modelled as insertion-ordered association lists:
updating an existing key overwrites its value in place, a new key is
appended at the end, exactly the observable behaviour of `dict`.

The generative and search backends are external collaborators; they enter
every statement as universally quantified oracles.
-/

set_option autoImplicit false

namespace Reflexion

/-- One tool call emitted by the model: an opaque identifier and the
`search_queries` argument list (the parsed `{"id": ..., "args": {"search_queries": [...]}}`). -/
structure ToolCall where
  id : String
  search_queries : List String
deriving DecidableEq, Repr

/-- A message of the conversation: `human` (user / synthetic feedback),
`ai` (model output carrying tool calls), `tool` (the grouped results for one
call identifier; the JSON-serialised `query -> output` mapping is kept as an
insertion-ordered association list). -/
inductive Message where
  | human (content : String)
  | ai (content : String) (tool_calls : List ToolCall)
  | tool (content : List (String × String)) (tool_call_id : String)
deriving DecidableEq, Repr

/-- A `ToolInvocation(tool=..., tool_input=query)` record. -/
structure ToolInvocation where
  tool : String
  tool_input : String
deriving DecidableEq, Repr

/-- Python `dict` assignment `m[k] = v`: overwrite in place if the key is
present, otherwise append the new binding at the end. -/
def dictInsert {α : Type} : List (String × α) → String → α → List (String × α)
  | [], k, v => [(k, v)]
  | (k', v') :: rest, k, v =>
      if k' = k then (k, v) :: rest else (k', v') :: dictInsert rest k v

/-- Python `dict` lookup: the binding of the first (hence only) occurrence of
the key. -/
def dictFind {α : Type} : List (String × α) → String → Option α
  | [], _ => none
  | (k', v') :: rest, k => if k' = k then some v' else dictFind rest k

/-- Keys of a dict, in insertion order. -/
def dictKeys {α : Type} (m : List (String × α)) : List String :=
  m.map Prod.fst

/-- The parser output on a message: the tool calls of an `ai` message
(`JsonOutputToolsParser` reads the tool calls of the `AIMessage`). -/
def toolCallsOf : Message → List ToolCall
  | .ai _ calls => calls
  | _ => []

/-- The single tool wired into the executor. -/
def tavilyToolName : String := "tavily_search_results_json"

/-- The double loop of `execute_tools` that builds the two parallel lists
`ids` and `tool_invocations`: for every parsed call, for every query in its
`search_queries`, append one invocation and record the originating id. -/
def gatherInvocations (calls : List ToolCall) : List String × List ToolInvocation :=
  calls.foldl
    (fun acc parsed_call =>
      parsed_call.search_queries.foldl
        (fun acc2 query =>
          (acc2.1 ++ [parsed_call.id],
           acc2.2 ++ [{ tool := tavilyToolName, tool_input := query }]))
        acc)
    ([], [])

/-- The batch execution `tool_executor.batch(tool_invocations)`: one output
per invocation, in order.  The collaborator is an oracle `exec` that may
answer each position of the batch independently (the search backend is
stateful, so two invocations with the same query string may get different
results). -/
def runBatch (exec : Nat → String → String) : Nat → List ToolInvocation → List String
  | _, [] => []
  | i, inv :: rest => exec i inv.tool_input :: runBatch exec (i + 1) rest

/-- One iteration of the grouping loop:
`outputs_map[id_][invocation.tool_input] = output` on a `defaultdict(dict)`
(reading `outputs_map[id_]` creates `{}` when the id is absent). -/
def groupStep (outputs_map : List (String × List (String × String)))
    (t : String × String × String) : List (String × List (String × String)) :=
  dictInsert outputs_map t.1
    (dictInsert ((dictFind outputs_map t.1).getD []) t.2.1 t.2.2)

/-- The grouping loop
`for id_, output, invocation in zip(ids, outputs, tool_invocations): outputs_map[id_][invocation.tool_input] = output`
over the zipped triples `(id, tool_input, output)`, starting from the empty
`defaultdict(dict)`. -/
def groupOutputs (triples : List (String × String × String)) :
    List (String × List (String × String)) :=
  triples.foldl groupStep []

/-- The tool dispatcher `execute_tools(state)`: read the last message, parse
its tool calls, flatten them into one invocation per query string, batch
them, regroup by originating id and emit one `ToolMessage` per distinct id
(in first-occurrence order, as iterating the `defaultdict` does). -/
def execute_tools (exec : Nat → String → String) (state : List Message) : List Message :=
  let tool_invocation := state.getLastD (Message.human "")
  let parsed_tool_calls := toolCallsOf tool_invocation
  let g := gatherInvocations parsed_tool_calls
  let outputs := runBatch exec 0 g.2
  let triples := (g.1.zip (g.2.zip outputs)).map fun t => (t.1, t.2.1.tool_input, t.2.2)
  (groupOutputs triples).map fun e => Message.tool e.2 e.1

/-- Modelled from the spec: the notebook delegates batch execution to
`ToolExecutor.batch`, whose partial-failure behaviour is not part of the
source under examination; the spec requires that "failure of one lookup
operation must not abort the batch" with per-operation isolation, omitting
failed entries.  Each position of the batch independently either succeeds
with an output (`some`) or fails (`none`). -/
def runBatchIsolated (exec : Nat → String → Option String) :
    Nat → List ToolInvocation → List (Option String)
  | _, [] => []
  | i, inv :: rest => exec i inv.tool_input :: runBatchIsolated exec (i + 1) rest

/-- Modelled from the spec: one iteration of the grouping loop under the
per-operation isolation policy — a failed operation contributes no entry to
its identifier's mapping and does not disturb any other entry. -/
def groupStepIsolated (outputs_map : List (String × List (String × String)))
    (t : String × String × Option String) : List (String × List (String × String)) :=
  match t.2.2 with
  | some output =>
      dictInsert outputs_map t.1
        (dictInsert ((dictFind outputs_map t.1).getD []) t.2.1 output)
  | none => outputs_map

/-- Modelled from the spec: the grouping loop under the per-operation
isolation policy. -/
def groupOutputsIsolated (triples : List (String × String × Option String)) :
    List (String × List (String × String)) :=
  triples.foldl groupStepIsolated []

/-- Modelled from the spec: `execute_tools` run over a batch executor with
per-operation failure isolation. -/
def execute_tools_isolated (exec : Nat → String → Option String)
    (state : List Message) : List Message :=
  let tool_invocation := state.getLastD (Message.human "")
  let parsed_tool_calls := toolCallsOf tool_invocation
  let g := gatherInvocations parsed_tool_calls
  let outputs := runBatchIsolated exec 0 g.2
  let triples := (g.1.zip (g.2.zip outputs)).map fun t => (t.1, t.2.1.tool_input, t.2.2)
  (groupOutputsIsolated triples).map fun e => Message.tool e.2 e.1

/-- The `isinstance(m, (ToolMessage, AIMessage))` test of the suffix scan. -/
def isGenerated : Message → Bool
  | .ai _ _ => true
  | .tool _ _ => true
  | .human _ => false

/-- The reversed-scan loop of `_get_num_iterations`: walk the reversed
conversation, incrementing until the first message that is neither a
`ToolMessage` nor an `AIMessage` (the `break`). -/
def numIterationsGo : List Message → Nat → Nat
  | [], i => i
  | m :: rest, i => if isGenerated m then numIterationsGo rest (i + 1) else i

/-- `_get_num_iterations(state)`: the number of consecutive trailing
generated messages, computed by scanning `state[::-1]`. -/
def _get_num_iterations (state : List Message) : Nat :=
  numIterationsGo state.reverse 0

/-- `MAX_ITERATIONS = 5`. -/
def MAX_ITERATIONS : Nat := 5

/-- The target of the conditional edge out of `revise`. -/
inductive NextNode where
  | execute_tools
  | END
deriving DecidableEq, Repr

/-- `event_loop(state)`: stop once the iteration count exceeds
`MAX_ITERATIONS`, otherwise loop back to `execute_tools`. -/
def event_loop (state : List Message) : NextNode :=
  if _get_num_iterations state > MAX_ITERATIONS then NextNode.END
  else NextNode.execute_tools

/-! ### The retrying responder

The loop body of `ResponderWithRetries.respond` rebinds its local `state`
variable to a freshly built list (`state = state + [HumanMessage(...)]`);
the caller's list object is never written.  To make this observable the
conversation lists live in an explicit heap of list objects and `respond`
receives a reference; every `+` allocates a new cell, no cell is ever
overwritten. -/

/-- A heap of Python list objects holding conversations; a reference is an
index into `cells`. -/
structure Heap where
  cells : List (List Message)
deriving Repr

/-- Dereference: the list object a reference points to. -/
def Heap.get (h : Heap) (r : Nat) : List Message :=
  (h.cells[r]?).getD []

/-- Python list concatenation `a + b`: allocate a fresh cell, return the heap
and the new reference. -/
def Heap.alloc (h : Heap) (c : List Message) : Heap × Nat :=
  ({ cells := h.cells ++ [c] }, h.cells.length)

/-- One outcome of `self.runnable.invoke({"messages": state})`: either an
`AIMessage`, or an exception — tagged with whether it is a pydantic
`ValidationError` (caught by the retry loop) or any other error
(propagates). -/
inductive CallOutcome where
  | ok (resp : Message)
  | exn (is_validation : Bool) (msg : String)
deriving Repr

/-- The generative backend as an oracle: the outcome of the `n`-th
invocation made by one `respond` call, given the conversation passed in.
Indexing by `n` captures that the remote model is stateful and may answer
repeated invocations differently. -/
def Client : Type := Nat → List Message → CallOutcome

/-- The schema validator `self.validator.invoke(response)`: `none` means the
response passed, `some e` means a `ValidationError` with description `e` was
raised. -/
def Validator : Type := Message → Option String

/-- The synthetic feedback message `HumanMessage(content=repr(e))`. -/
def validationFeedback (e : String) : Message :=
  Message.human ("ValidationError(" ++ e ++ ")")

/-- The observable result of one `respond` call: the heap after the call,
the value returned (`Except.error` is an uncaught exception propagating to
the caller; `Option.none` is the initial `response = []` value, returned
only when no invocation ever produced a message), and the number of
invocations of the client that were made. -/
structure RespondOutcome where
  heap : Heap
  result : Except String (Option Message)
  attempts : Nat
deriving Repr

/-- The `for attempt in range(3)` loop of `respond`: `attempt` invocations
already made, `remaining` iterations left, `ref` the local `state` variable,
`response` the local `response` variable. -/
def respondLoop (client : Client) (validator : Validator) :
    Nat → Nat → Heap → Nat → Option Message → RespondOutcome
  | attempt, 0, h, _, response => ⟨h, Except.ok response, attempt⟩
  | attempt, remaining + 1, h, ref, response =>
      match client attempt (h.get ref) with
      | CallOutcome.exn true e =>
          let a := h.alloc (h.get ref ++ [validationFeedback e])
          respondLoop client validator (attempt + 1) remaining a.1 a.2 response
      | CallOutcome.exn false e => ⟨h, Except.error e, attempt + 1⟩
      | CallOutcome.ok resp =>
          match validator resp with
          | none => ⟨h, Except.ok (some resp), attempt + 1⟩
          | some e =>
              let a := h.alloc (h.get ref ++ [validationFeedback e])
              respondLoop client validator (attempt + 1) remaining a.1 a.2 (some resp)

/-- `ResponderWithRetries.respond(state)`: up to 3 attempts, starting from
the caller's conversation reference with `response = []`. -/
def respond (client : Client) (validator : Validator) (h : Heap) (ref : Nat) :
    RespondOutcome :=
  respondLoop client validator 0 3 h ref none

/-! ### The structured-output schemas

`AnswerQuestion(BaseModel)` declares `answer: str`,
`reflection: Reflection` (with `missing: str`, `superfluous: str`) and
`search_queries: List[str]`; `ReviseAnswer(AnswerQuestion)` adds
`references: List[str]`.  Every `Field(...)` carries only a `description`
— no length or cardinality constraint is declared on any field, so pydantic
validation checks field presence and types only.  Candidates are embedded as
JSON-like values. -/

/-- A JSON-like candidate value handed to the pydantic validator. -/
inductive JValue where
  | str (s : String)
  | arr (xs : List JValue)
  | obj (fields : List (String × JValue))
  | other

/-- Field lookup in a JSON object. -/
def jLookup : List (String × JValue) → String → Option JValue
  | [], _ => none
  | (k', v') :: rest, k => if k' = k then some v' else jLookup rest k

/-- Pydantic `str` field check. -/
def isStr : JValue → Bool
  | .str _ => true
  | _ => false

/-- Pydantic `List[str]` field check. -/
def isListStr : JValue → Bool
  | .arr xs => xs.all isStr
  | _ => false

/-- Validation of the nested `Reflection` model: `missing: str`,
`superfluous: str`. -/
def validReflection (v : JValue) : Bool :=
  match v with
  | .obj fs =>
      ((jLookup fs "missing").map isStr).getD false &&
      ((jLookup fs "superfluous").map isStr).getD false
  | _ => false

/-- Validation of an `AnswerQuestion` candidate: `answer: str`,
`reflection: Reflection`, `search_queries: List[str]`.  The "1-3" bound of
`search_queries` appears only in the field description (a prompt hint), so
no length check is performed. -/
def validAnswerQuestion (v : JValue) : Bool :=
  match v with
  | .obj fs =>
      ((jLookup fs "answer").map isStr).getD false &&
      ((jLookup fs "reflection").map validReflection).getD false &&
      ((jLookup fs "search_queries").map isListStr).getD false
  | _ => false

/-- Validation of a `ReviseAnswer` candidate: the `AnswerQuestion` fields
plus `references: List[str]`. -/
def validReviseAnswer (v : JValue) : Bool :=
  validAnswerQuestion v &&
  (match v with
   | .obj fs => ((jLookup fs "references").map isListStr).getD false
   | _ => false)

/-- Build an `AnswerQuestion` candidate object from its field contents. -/
def mkAnswerQuestion (answer missing superfluous : String)
    (search_queries : List String) : JValue :=
  JValue.obj
    [("answer", JValue.str answer),
     ("reflection", JValue.obj
        [("missing", JValue.str missing),
         ("superfluous", JValue.str superfluous)]),
     ("search_queries", JValue.arr (search_queries.map JValue.str))]

/-- Build a `ReviseAnswer` candidate object from its field contents. -/
def mkReviseAnswer (answer missing superfluous : String)
    (search_queries references : List String) : JValue :=
  JValue.obj
    [("answer", JValue.str answer),
     ("reflection", JValue.obj
        [("missing", JValue.str missing),
         ("superfluous", JValue.str superfluous)]),
     ("search_queries", JValue.arr (search_queries.map JValue.str)),
     ("references", JValue.arr (references.map JValue.str))]

/-! ### The compiled graph

`builder.add_node("draft", ...)`, `add_node("execute_tools", ...)`,
`add_node("revise", ...)`, edges `draft -> execute_tools -> revise` and the
conditional edge `revise -> (execute_tools | END)` via `event_loop`, entry
point `draft`.  A `MessageGraph` appends each node's returned messages to
the shared message list.  The responders are abstracted by oracles giving,
for the conversation they see, the `AIMessage` (content and tool calls) the
validated-or-best-effort response carries; the search backend is the oracle
of `execute_tools`, allowed to depend on the conversation. -/

/-- The node about to run (`terminated` is the `END` state). -/
inductive Node where
  | draft
  | execute_tools
  | revise
  | terminated
deriving DecidableEq, Repr

/-- The external collaborators of one graph run. -/
structure Oracle where
  draftContent : List Message → String
  draftCalls : List Message → List ToolCall
  reviseContent : List Message → String
  reviseCalls : List Message → List ToolCall
  search : List Message → Nat → String → String

/-- One superstep of the compiled graph: run the node about to execute,
append its returned messages, follow the (conditional) edge. -/
def graphStep (o : Oracle) : Node × List Message → Node × List Message
  | (Node.draft, c) =>
      (Node.execute_tools, c ++ [Message.ai (o.draftContent c) (o.draftCalls c)])
  | (Node.execute_tools, c) =>
      (Node.revise, c ++ execute_tools (o.search c) c)
  | (Node.revise, c) =>
      let c' := c ++ [Message.ai (o.reviseContent c) (o.reviseCalls c)]
      (if event_loop c' = NextNode.END then Node.terminated
       else Node.execute_tools, c')
  | (Node.terminated, c) => (Node.terminated, c)

/-! ### Specification-side helpers -/

/-- The flattened `(call-identifier, query)` pairs of a list of tool calls,
in dispatch order. -/
def pairsOf (calls : List ToolCall) : List (String × String) :=
  calls.flatMap fun c => c.search_queries.map fun q => (c.id, q)

/-- The zipped `(id, tool_input, output)` triples, computed directly from
the flattened pairs: the `j`-th dispatched operation carries the `j`-th
pair and the output `exec j` of its position in the batch. -/
def attachOutputs (exec : Nat → String → String) :
    Nat → List (String × String) → List (String × String × String)
  | _, [] => []
  | i, p :: rest => (p.1, p.2, exec i p.2) :: attachOutputs exec (i + 1) rest

/-- The zipped triples for the isolation-policy executor. -/
def attachOutputsIsolated (exec : Nat → String → Option String) :
    Nat → List (String × String) → List (String × String × Option String)
  | _, [] => []
  | i, p :: rest => (p.1, p.2, exec i p.2) :: attachOutputsIsolated exec (i + 1) rest

/-- The correlation identifier of an emitted message (`""` for non-tool
messages, which the dispatcher never emits). -/
def toolCallIdOf : Message → String
  | .tool _ id => id
  | _ => ""

/-- The query-to-output mapping of an emitted message. -/
def toolContentOf : Message → List (String × String)
  | .tool content _ => content
  | _ => []

/-- Left-biased choice on options. -/
def optOr {α : Type} : Option α → Option α → Option α
  | some v, _ => some v
  | none, b => b

/-- Two-level lookup in the grouped outputs: the output recorded for query
`q` under identifier `id`. -/
def groupFind (m : List (String × List (String × String))) (id q : String) :
    Option String :=
  match dictFind m id with
  | some inner => dictFind inner q
  | none => none

/-- The output of the last triple for `(id, q)` — the value a Python dict
holds after the grouping loop, since later assignments overwrite earlier
ones. -/
def lastWins (ts : List (String × String × String)) (id q : String) :
    Option String :=
  ((ts.filter fun t => t.1 == id && t.2.1 == q).getLast?).map fun t => t.2.2

/-- The successful triples of an isolation-policy batch, with their outputs
unwrapped, in order. -/
def successes (ts : List (String × String × Option String)) :
    List (String × String × String) :=
  ts.filterMap fun t => (t.2.2).map fun out => (t.1, t.2.1, out)

/-! ### Dictionary lemmas -/

theorem dictFind_dictInsert {α : Type} (m : List (String × α)) (k k' : String) (v : α) :
    dictFind (dictInsert m k v) k' = if k' = k then some v else dictFind m k' := by
  induction m with
  | nil =>
      rcases eq_or_ne k' k with h | h
      · subst h; simp [dictInsert, dictFind]
      · simp [dictInsert, dictFind, h, Ne.symm h]
  | cons e rest ih =>
      obtain ⟨ek, ev⟩ := e
      rcases eq_or_ne ek k with h1 | h1
      · subst h1
        rcases eq_or_ne k' ek with h2 | h2
        · subst h2; simp [dictInsert, dictFind]
        · simp [dictInsert, dictFind, h2, Ne.symm h2]
      · rcases eq_or_ne ek k' with h2 | h2
        · subst h2
          simp [dictInsert, dictFind, h1, Ne.symm h1]
        · rcases eq_or_ne k' k with h3 | h3
          · subst h3
            simp [dictInsert, dictFind, h1, Ne.symm h2, ih]
          · simp [dictInsert, dictFind, h1, Ne.symm h2, h3, ih]

theorem dictKeys_dictInsert {α : Type} (m : List (String × α)) (k : String) (v : α) :
    dictKeys (dictInsert m k v) =
      if k ∈ dictKeys m then dictKeys m else dictKeys m ++ [k] := by
  induction m with
  | nil => simp [dictInsert, dictKeys]
  | cons e rest ih =>
      obtain ⟨ek, ev⟩ := e
      rcases eq_or_ne ek k with h1 | h1
      · subst h1
        simp [dictInsert, dictKeys]
      · have hne : ¬(k = ek) := fun h => h1 h.symm
        rcases Classical.em (k ∈ dictKeys rest) with h2 | h2 <;>
        · simp only [dictKeys, List.map_cons] at ih h2 ⊢
          simp only [dictInsert, if_neg h1, List.map_cons, List.mem_cons, hne,
            false_or, ih]
          simp [h2]

theorem mem_dictKeys_iff_isSome {α : Type} (m : List (String × α)) (k : String) :
    k ∈ dictKeys m ↔ (dictFind m k).isSome := by
  induction m with
  | nil => simp [dictKeys, dictFind]
  | cons e rest ih =>
      obtain ⟨ek, ev⟩ := e
      rcases eq_or_ne ek k with h1 | h1
      · subst h1; simp [dictKeys, dictFind]
      · have hne : ¬(k = ek) := fun h => h1 h.symm
        simp only [dictKeys, List.map_cons, List.mem_cons, hne, false_or,
          dictFind, if_neg h1]
        exact ih

theorem nodup_dictKeys_dictInsert {α : Type} (m : List (String × α)) (k : String)
    (v : α) (h : (dictKeys m).Nodup) : (dictKeys (dictInsert m k v)).Nodup := by
  rw [dictKeys_dictInsert]
  rcases Classical.em (k ∈ dictKeys m) with h2 | h2
  · simpa [h2] using h
  · simp [h2, List.nodup_append, h, List.disjoint_singleton]

theorem dictFind_eq_some_of_mem {α : Type} (m : List (String × α)) (e : String × α)
    (hn : (dictKeys m).Nodup) (hm : e ∈ m) : dictFind m e.1 = some e.2 := by
  induction m with
  | nil => simp at hm
  | cons f rest ih =>
      obtain ⟨fk, fv⟩ := f
      have hn2 : (fk :: List.map Prod.fst rest).Nodup := by
        simpa only [dictKeys, List.map_cons] using hn
      have hn' := List.nodup_cons.mp hn2
      rcases List.mem_cons.mp hm with h | h
      · subst h; simp [dictFind]
      · have hmem : e.1 ∈ List.map Prod.fst rest := List.mem_map_of_mem Prod.fst h
        have hk : ¬(fk = e.1) := fun hE => hn'.1 (hE ▸ hmem)
        simp only [dictFind, if_neg hk]
        exact ih hn'.2 h

theorem mem_of_dictFind_eq_some {α : Type} (m : List (String × α)) (k : String)
    (v : α) (h : dictFind m k = some v) : (k, v) ∈ m := by
  induction m with
  | nil => simp [dictFind] at h
  | cons f rest ih =>
      obtain ⟨fk, fv⟩ := f
      rcases eq_or_ne fk k with h1 | h1
      · subst h1
        have h2 : fv = v := by simpa [dictFind] using h
        subst h2
        exact List.mem_cons_self _ _
      · simp only [dictFind, if_neg h1] at h
        exact List.mem_cons_of_mem _ (ih h)

/-! ### Lemmas on optOr and getLast? -/

theorem optOr_some {α : Type} (v : α) (b : Option α) : optOr (some v) b = some v := rfl

theorem optOr_none {α : Type} (b : Option α) : optOr none b = b := rfl

theorem optOr_map {α β : Type} (f : α → β) (a b : Option α) :
    (optOr a b).map f = optOr (a.map f) (b.map f) := by
  cases a <;> rfl

theorem getLast?_cons_optOr {α : Type} (a : α) (l : List α) :
    (a :: l).getLast? = optOr l.getLast? (some a) := by
  cases l with
  | nil => rfl
  | cons b xs =>
      rw [List.getLast?_cons_cons]
      cases h : (b :: xs).getLast? with
      | none =>
          have := List.getLast?_isSome.mpr (List.cons_ne_nil b xs)
          rw [h] at this
          simp at this
      | some x => rfl

/-! ### Characterisation of the grouping loop -/

theorem groupFind_groupStep (m : List (String × List (String × String)))
    (t : String × String × String) (id q : String) :
    groupFind (groupStep m t) id q =
      if t.1 = id ∧ t.2.1 = q then some t.2.2 else groupFind m id q := by
  obtain ⟨tid, tq, tout⟩ := t
  cases hf : dictFind m tid with
  | none =>
      rcases eq_or_ne id tid with h1 | h1
      · subst h1
        rcases eq_or_ne q tq with h2 | h2
        · subst h2
          simp [groupStep, groupFind, dictFind_dictInsert, hf]
        · simp [groupStep, groupFind, dictFind_dictInsert, dictFind, hf, h2,
            Ne.symm h2]
      · simp [groupStep, groupFind, dictFind_dictInsert, hf, h1, Ne.symm h1,
          fun hc : tid = id ∧ tq = q => h1 hc.1.symm]
  | some inner =>
      rcases eq_or_ne id tid with h1 | h1
      · subst h1
        rcases eq_or_ne q tq with h2 | h2
        · subst h2
          simp [groupStep, groupFind, dictFind_dictInsert, hf]
        · simp [groupStep, groupFind, dictFind_dictInsert, hf, h2, Ne.symm h2]
      · simp [groupStep, groupFind, dictFind_dictInsert, hf, h1, Ne.symm h1,
          fun hc : tid = id ∧ tq = q => h1 hc.1.symm]

theorem lastWins_cons (t : String × String × String)
    (ts : List (String × String × String)) (id q : String) :
    lastWins (t :: ts) id q =
      if t.1 = id ∧ t.2.1 = q then optOr (lastWins ts id q) (some t.2.2)
      else lastWins ts id q := by
  obtain ⟨tid, tq, tout⟩ := t
  rcases Classical.em (tid = id ∧ tq = q) with h | h
  · obtain ⟨h1, h2⟩ := h
    subst h1
    subst h2
    simp [lastWins, List.filter_cons, getLast?_cons_optOr, optOr_map]
  · have hb : (tid == id && tq == q) = false := by
      rcases Classical.em (tid = id) with h1 | h1 <;>
        rcases Classical.em (tq = q) with h2 | h2 <;>
        simp [h1, h2] at h ⊢
    simp [lastWins, List.filter_cons, hb, h]

theorem groupFind_foldl (ts : List (String × String × String))
    (m : List (String × List (String × String))) (id q : String) :
    groupFind (ts.foldl groupStep m) id q =
      optOr (lastWins ts id q) (groupFind m id q) := by
  induction ts generalizing m with
  | nil => simp [lastWins, optOr]
  | cons t ts ih =>
      rw [List.foldl_cons, ih, groupFind_groupStep, lastWins_cons]
      split_ifs with h
      · cases lastWins ts id q <;> rfl
      · rfl

theorem groupFind_groupOutputs (ts : List (String × String × String)) (id q : String) :
    groupFind (groupOutputs ts) id q = lastWins ts id q := by
  rw [groupOutputs, groupFind_foldl]
  cases lastWins ts id q <;> rfl

theorem mem_dictKeys_groupStep (m : List (String × List (String × String)))
    (t : String × String × String) (id : String) :
    id ∈ dictKeys (groupStep m t) ↔ id ∈ dictKeys m ∨ id = t.1 := by
  rw [groupStep, dictKeys_dictInsert]
  split_ifs with h
  · constructor
    · exact fun hm => Or.inl hm
    · rintro (hm | rfl)
      · exact hm
      · exact h
  · simp [List.mem_append]

theorem mem_dictKeys_foldl_groupStep (ts : List (String × String × String))
    (m : List (String × List (String × String))) (id : String) :
    id ∈ dictKeys (ts.foldl groupStep m) ↔
      id ∈ dictKeys m ∨ id ∈ ts.map (fun t => t.1) := by
  induction ts generalizing m with
  | nil => simp
  | cons t ts ih =>
      rw [List.foldl_cons, ih, mem_dictKeys_groupStep]
      simp only [List.map_cons, List.mem_cons]
      tauto

theorem nodup_dictKeys_foldl_groupStep (ts : List (String × String × String))
    (m : List (String × List (String × String))) (h : (dictKeys m).Nodup) :
    (dictKeys (ts.foldl groupStep m)).Nodup := by
  induction ts generalizing m with
  | nil => exact h
  | cons t ts ih => exact ih _ (nodup_dictKeys_dictInsert _ _ _ h)

theorem nodup_dictKeys_groupOutputs (ts : List (String × String × String)) :
    (dictKeys (groupOutputs ts)).Nodup :=
  nodup_dictKeys_foldl_groupStep ts [] (by simp [dictKeys])

theorem mem_dictKeys_groupOutputs (ts : List (String × String × String)) (id : String) :
    id ∈ dictKeys (groupOutputs ts) ↔ id ∈ ts.map (fun t => t.1) := by
  rw [groupOutputs, mem_dictKeys_foldl_groupStep]
  simp [dictKeys]

theorem lastWins_isSome_iff (ts : List (String × String × String)) (id q : String) :
    (lastWins ts id q).isSome ↔ ∃ t ∈ ts, t.1 = id ∧ t.2.1 = q := by
  rw [lastWins]
  rw [Option.isSome_map']
  rw [List.getLast?_isSome]
  rw [Ne, List.filter_eq_nil_iff]
  push_neg
  simp

/-! ### The flattening of tool calls into the batch -/

theorem attachOutputs_proj (exec : Nat → String → String) (i : Nat)
    (ps : List (String × String)) :
    (attachOutputs exec i ps).map (fun t => (t.1, t.2.1)) = ps := by
  induction ps generalizing i with
  | nil => rfl
  | cons p rest ih => simp [attachOutputs, ih]

theorem attachOutputs_length (exec : Nat → String → String) (i : Nat)
    (ps : List (String × String)) :
    (attachOutputs exec i ps).length = ps.length := by
  induction ps generalizing i with
  | nil => rfl
  | cons p rest ih => simp [attachOutputs, ih]

theorem attachOutputs_getElem? (exec : Nat → String → String) (i j : Nat)
    (ps : List (String × String)) :
    (attachOutputs exec i ps)[j]? =
      (ps[j]?).map (fun p => (p.1, p.2, exec (i + j) p.2)) := by
  induction ps generalizing i j with
  | nil => simp [attachOutputs]
  | cons p rest ih =>
      cases j with
      | zero => simp [attachOutputs]
      | succ j =>
          simp only [attachOutputs, List.getElem?_cons_succ, ih]
          have : i + 1 + j = i + (j + 1) := by omega
          rw [this]

theorem gather_inner (id : String) (qs : List String)
    (acc : List String × List ToolInvocation) :
    qs.foldl
      (fun acc2 query =>
        (acc2.1 ++ [id], acc2.2 ++ [{ tool := tavilyToolName, tool_input := query }]))
      acc =
    (acc.1 ++ qs.map fun _ => id,
     acc.2 ++ qs.map fun q => { tool := tavilyToolName, tool_input := q }) := by
  induction qs generalizing acc with
  | nil => simp
  | cons q rest ih => simp [ih]

theorem gather_go (calls : List ToolCall) (acc : List String × List ToolInvocation) :
    calls.foldl
      (fun acc parsed_call =>
        parsed_call.search_queries.foldl
          (fun acc2 query =>
            (acc2.1 ++ [parsed_call.id],
             acc2.2 ++ [{ tool := tavilyToolName, tool_input := query }]))
          acc)
      acc =
    (acc.1 ++ (pairsOf calls).map Prod.fst,
     acc.2 ++ (pairsOf calls).map fun p => { tool := tavilyToolName, tool_input := p.2 }) := by
  induction calls generalizing acc with
  | nil => simp [pairsOf]
  | cons c rest ih =>
      rw [List.foldl_cons, gather_inner, ih]
      simp [pairsOf, List.map_map, Function.comp]

theorem gatherInvocations_eq (calls : List ToolCall) :
    gatherInvocations calls =
      ((pairsOf calls).map Prod.fst,
       (pairsOf calls).map fun p => { tool := tavilyToolName, tool_input := p.2 }) := by
  rw [gatherInvocations, gather_go]
  simp

theorem triples_eq (exec : Nat → String → String) (ps : List (String × String))
    (i : Nat) :
    (((ps.map Prod.fst).zip
        ((ps.map fun p => ({ tool := tavilyToolName, tool_input := p.2 } : ToolInvocation)).zip
          (runBatch exec i (ps.map fun p => { tool := tavilyToolName, tool_input := p.2 })))).map
      fun t => (t.1, t.2.1.tool_input, t.2.2)) = attachOutputs exec i ps := by
  induction ps generalizing i with
  | nil => rfl
  | cons p rest ih => simp [runBatch, attachOutputs, ih]

theorem execute_tools_eq (exec : Nat → String → String) (state : List Message) :
    execute_tools exec state =
      (groupOutputs
        (attachOutputs exec 0
          (pairsOf (toolCallsOf (state.getLastD (Message.human "")))))).map
        fun e => Message.tool e.2 e.1 := by
  rw [execute_tools, gatherInvocations_eq]
  rw [triples_eq]

theorem exists_mem_iff_ne_nil {α : Type} (l : List α) : (∃ x, x ∈ l) ↔ l ≠ [] := by
  cases l <;> simp

theorem map_toolCallIdOf (G : List (String × List (String × String))) :
    ((G.map fun e => Message.tool e.2 e.1).map toolCallIdOf) = dictKeys G := by
  rw [List.map_map]
  rfl

theorem attachOutputs_fst (exec : Nat → String → String) (i : Nat)
    (ps : List (String × String)) :
    (attachOutputs exec i ps).map (fun t => t.1) = ps.map Prod.fst := by
  have h := attachOutputs_proj exec i ps
  calc (attachOutputs exec i ps).map (fun t => t.1)
      = ((attachOutputs exec i ps).map fun t => (t.1, t.2.1)).map Prod.fst := by
        rw [List.map_map]; rfl
    _ = ps.map Prod.fst := by rw [h]

theorem mem_fst_pairsOf (calls : List ToolCall) (id : String)
    (hne : ∀ c ∈ calls, c.search_queries ≠ []) :
    id ∈ (pairsOf calls).map Prod.fst ↔ ∃ c ∈ calls, c.id = id := by
  simp only [pairsOf, List.mem_map, List.mem_flatMap]
  constructor
  · rintro ⟨p, ⟨c, hc, q, _, rfl⟩, rfl⟩
    exact ⟨c, hc, rfl⟩
  · rintro ⟨c, hc, rfl⟩
    obtain ⟨q, hq⟩ : ∃ q, q ∈ c.search_queries :=
      (exists_mem_iff_ne_nil _).mpr (hne c hc)
    exact ⟨(c.id, q), ⟨c, hc, q, hq, rfl⟩, rfl⟩

/-- C1: for every Model message given to `execute_tools` (whose ToolCalls
each carry at least one query string, as the data model requires), the
dispatcher emits exactly one ToolResult message per distinct
call-identifier appearing in the message's ToolCalls — the emitted
identifiers are duplicate-free and an identifier is emitted iff some
ToolCall carries it — each ToolResult's mapping has a key set equal to
exactly that identifier's query strings (a query is a key iff the pair
(identifier, query) is among the message's flattened pairs: no query lost,
no key from another identifier), and a message with zero ToolCalls makes
the dispatcher emit zero ToolResult messages. -/
theorem C1_tool_dispatcher_correlation (exec : Nat → String → String)
    (pre : List Message) (content : String) (calls : List ToolCall)
    (hne : ∀ c ∈ calls, c.search_queries ≠ []) :
    ((execute_tools exec (pre ++ [Message.ai content calls])).map toolCallIdOf).Nodup ∧
    (∀ id,
      id ∈ (execute_tools exec (pre ++ [Message.ai content calls])).map toolCallIdOf ↔
        ∃ c ∈ calls, c.id = id) ∧
    (∀ mg ∈ execute_tools exec (pre ++ [Message.ai content calls]), ∀ q,
      q ∈ dictKeys (toolContentOf mg) ↔ (toolCallIdOf mg, q) ∈ pairsOf calls) ∧
    (calls = [] → execute_tools exec (pre ++ [Message.ai content calls]) = []) := by
  have hstate : (pre ++ [Message.ai content calls]).getLastD (Message.human "") =
      Message.ai content calls := List.getLastD_concat _ _ _
  have hexec : execute_tools exec (pre ++ [Message.ai content calls]) =
      (groupOutputs (attachOutputs exec 0 (pairsOf calls))).map
        fun e => Message.tool e.2 e.1 := by
    rw [execute_tools_eq, hstate]
    rfl
  refine ⟨?_, ?_, ?_, ?_⟩
  · rw [hexec, map_toolCallIdOf]
    exact nodup_dictKeys_groupOutputs _
  · intro id
    rw [hexec, map_toolCallIdOf, mem_dictKeys_groupOutputs,
      attachOutputs_fst, mem_fst_pairsOf calls id hne]
  · intro mg hmg q
    rw [hexec] at hmg
    rcases List.mem_map.mp hmg with ⟨e, he, rfl⟩
    have hfind : dictFind (groupOutputs (attachOutputs exec 0 (pairsOf calls))) e.1 =
        some e.2 :=
      dictFind_eq_some_of_mem _ _ (nodup_dictKeys_groupOutputs _) he
    have hgf : groupFind (groupOutputs (attachOutputs exec 0 (pairsOf calls))) e.1 q =
        dictFind e.2 q := by
      simp [groupFind, hfind]
    have hcontent : toolContentOf (Message.tool e.2 e.1) = e.2 := rfl
    have hid : toolCallIdOf (Message.tool e.2 e.1) = e.1 := rfl
    rw [hcontent, hid, mem_dictKeys_iff_isSome, ← hgf, groupFind_groupOutputs,
      lastWins_isSome_iff]
    constructor
    · rintro ⟨t, ht, h1, h2⟩
      have hm : (t.1, t.2.1) ∈
          (attachOutputs exec 0 (pairsOf calls)).map fun t => (t.1, t.2.1) :=
        List.mem_map_of_mem _ ht
      rw [attachOutputs_proj] at hm
      rwa [h1, h2] at hm
    · intro hp
      have hm : (e.1, q) ∈
          (attachOutputs exec 0 (pairsOf calls)).map fun t => (t.1, t.2.1) := by
        rw [attachOutputs_proj]
        exact hp
      rcases List.mem_map.mp hm with ⟨t, ht, hEq⟩
      exact ⟨t, ht, congrArg Prod.fst hEq, congrArg Prod.snd hEq⟩
  · intro h
    subst h
    rw [hexec]
    rfl

/-- Witness for C1: on a concrete model message carrying zero tool calls,
the dispatcher emits zero messages. -/
theorem C1_tool_dispatcher_correlation_witness :
    execute_tools (fun _ q => q) ([] ++ [Message.ai "" []]) = [] :=
  (C1_tool_dispatcher_correlation (fun _ q => q) [] "" [] (by decide)).2.2.2 rfl

/-! ### The iteration counter -/

theorem numIterationsGo_eq (l : List Message) (i : Nat) :
    numIterationsGo l i = i + (l.takeWhile isGenerated).length := by
  induction l generalizing i with
  | nil => simp [numIterationsGo]
  | cons m rest ih =>
      cases hg : isGenerated m <;>
        simp [numIterationsGo, List.takeWhile_cons, hg, ih]
      omega

theorem takeWhile_append_of_all {α : Type} (p : α → Bool) (a b : List α)
    (h : ∀ x ∈ a, p x = true) :
    (a ++ b).takeWhile p = a ++ b.takeWhile p := by
  induction a with
  | nil => simp
  | cons x xs ih =>
      simp only [List.cons_append, List.takeWhile_cons, h x (List.mem_cons_self x xs),
        if_true]
      rw [ih fun y hy => h y (List.mem_cons_of_mem x hy)]

/-- C2: the termination decision is a pure function of the Conversation —
`_get_num_iterations` equals the length of the maximal trailing run of
Model/ToolResult messages (formally, the `takeWhile` of the reversed
Conversation under `isGenerated`); a later Human message resets the count
(the depth of any Conversation `pre ++ human :: suf` with `suf` all
generated is exactly `suf.length`); and `event_loop` returns `END`
(Terminated) exactly when this depth exceeds the fixed maximum 5, otherwise
`execute_tools`. -/
theorem C2_termination_pure_suffix_scan :
    (∀ state : List Message,
      _get_num_iterations state = (state.reverse.takeWhile isGenerated).length) ∧
    (∀ (pre : List Message) (c : String) (suf : List Message),
      (∀ mg ∈ suf, isGenerated mg = true) →
      _get_num_iterations (pre ++ Message.human c :: suf) = suf.length) ∧
    (∀ state : List Message,
      (event_loop state = NextNode.END ↔ _get_num_iterations state > MAX_ITERATIONS) ∧
      (event_loop state = NextNode.execute_tools ↔
        ¬ _get_num_iterations state > MAX_ITERATIONS)) := by
  have hbase : ∀ state : List Message,
      _get_num_iterations state = (state.reverse.takeWhile isGenerated).length := by
    intro state
    rw [_get_num_iterations, numIterationsGo_eq]
    omega
  refine ⟨hbase, ?_, ?_⟩
  · intro pre c suf hsuf
    rw [hbase, List.reverse_append, List.reverse_cons, List.append_assoc]
    rw [takeWhile_append_of_all isGenerated suf.reverse _
      fun x hx => hsuf x (List.mem_reverse.mp hx)]
    have hstop : (([Message.human c] ++ pre.reverse).takeWhile isGenerated) = [] := by
      simp [List.takeWhile_cons, isGenerated]
    rw [hstop]
    simp
  · intro state
    rw [event_loop]
    split_ifs with h <;> simp [h]

/-- Witness for C2: a Human message followed by two generated messages has
iteration depth 2, even after an earlier Human message. -/
theorem C2_termination_pure_suffix_scan_witness :
    _get_num_iterations
      ([Message.human "t"] ++ Message.human "t2" ::
        [Message.ai "" [], Message.tool [] "x"]) = 2 := by
  have h := C2_termination_pure_suffix_scan.2.1 [Message.human "t"] "t2"
    [Message.ai "" [], Message.tool [] "x"] (by decide)
  simpa using h

/-! ### Schema validation of search_queries -/

theorem map_str_all_isStr (qs : List String) : (qs.map JValue.str).all isStr = true := by
  induction qs with
  | nil => rfl
  | cons q rest ih => simp [isStr, ih]

/-- C7 counterexample: a candidate whose `search_queries` list is empty, and
one with four entries, both pass `AnswerQuestion` validation (and likewise
`ReviseAnswer`), contradicting the claim that such candidates fail schema
validation. -/
theorem C7_counterexample_length_unchecked :
    validAnswerQuestion (mkAnswerQuestion "a" "m" "s" []) = true ∧
    validAnswerQuestion (mkAnswerQuestion "a" "m" "s" ["1", "2", "3", "4"]) = true ∧
    validReviseAnswer (mkReviseAnswer "a" "m" "s" [] []) = true :=
  ⟨rfl, rfl, rfl⟩

/-- C7 amended: schema validation of an `AnswerQuestion` or `ReviseAnswer`
candidate checks that `search_queries` is a list of strings but imposes no
cardinality bound — the "1-3" bound lives only in the field description
given to the model — so candidates with empty or longer-than-3 lists pass
validation for every choice of the other (well-typed) fields. -/
theorem C7_amended_no_length_constraint :
    ∀ (a m s : String) (qs refs : List String),
      validAnswerQuestion (mkAnswerQuestion a m s qs) = true ∧
      validReviseAnswer (mkReviseAnswer a m s qs refs) = true := by
  intro a m s qs refs
  constructor
  · have h : validAnswerQuestion (mkAnswerQuestion a m s qs) =
        (qs.map JValue.str).all isStr := rfl
    rw [h, map_str_all_isStr]
  · have h : validReviseAnswer (mkReviseAnswer a m s qs refs) =
        ((qs.map JValue.str).all isStr && (refs.map JValue.str).all isStr) := rfl
    rw [h, map_str_all_isStr, map_str_all_isStr]
    rfl

/-! ### C6: each query string is one independent operation -/

theorem runBatch_length (exec : Nat → String → String) (i : Nat)
    (invs : List ToolInvocation) :
    (runBatch exec i invs).length = invs.length := by
  induction invs generalizing i with
  | nil => rfl
  | cons inv rest ih => simp [runBatch, ih]

/-- C6: the Tool Dispatcher flattens every (call-identifier, query) pair of
the Model message into independent lookup operations — the invocation list
has exactly one entry per query string (its length is the total number of
query strings over all ToolCalls), the `j`-th invocation carries exactly the
`j`-th flattened query string as its sole input (so queries sharing a
call-identifier are never merged into one request), the parallel id list
records the originating identifier positionally, and the batch executes one
lookup per invocation. -/
theorem C6_flatten_independent_operations (calls : List ToolCall) :
    ((gatherInvocations calls).2.length =
      (calls.map fun c => c.search_queries.length).sum) ∧
    (∀ j : Nat, ((gatherInvocations calls).2)[j]? =
      ((pairsOf calls)[j]?).map fun p =>
        ({ tool := tavilyToolName, tool_input := p.2 } : ToolInvocation)) ∧
    (∀ j : Nat,
      ((gatherInvocations calls).1)[j]? = ((pairsOf calls)[j]?).map Prod.fst) ∧
    (∀ exec : Nat → String → String,
      (runBatch exec 0 (gatherInvocations calls).2).length =
        (gatherInvocations calls).2.length) := by
  rw [gatherInvocations_eq]
  refine ⟨?_, ?_, ?_, ?_⟩
  · rw [List.length_map, pairsOf, List.length_flatMap]
    refine congrArg List.sum (List.map_congr_left fun c _ => ?_)
    simp
  · intro j
    simp [List.getElem?_map]
  · intro j
    simp [List.getElem?_map]
  · intro exec
    exact runBatch_length exec 0 _

/-! ### C10: a duplicated query keeps only its last result -/

theorem optOr_none_right {α : Type} (a : Option α) : optOr a none = a := by
  cases a <;> rfl

theorem optOr_assoc {α : Type} (a b c : Option α) :
    optOr (optOr a b) c = optOr a (optOr b c) := by
  cases a <;> cases b <;> rfl

theorem getLast?_append_optOr {α : Type} (l1 l2 : List α) :
    (l1 ++ l2).getLast? = optOr l2.getLast? l1.getLast? := by
  induction l1 with
  | nil => simp [optOr_none_right]
  | cons a l1 ih =>
      rw [List.cons_append, getLast?_cons_optOr, ih, getLast?_cons_optOr,
        optOr_assoc]

theorem lastWins_append (ts1 ts2 : List (String × String × String)) (id q : String) :
    lastWins (ts1 ++ ts2) id q = optOr (lastWins ts2 id q) (lastWins ts1 id q) := by
  rw [lastWins, List.filter_append, getLast?_append_optOr, optOr_map]
  rfl

theorem lastWins_eq_none_of_no_match (ts : List (String × String × String))
    (id q : String) (h : ∀ t ∈ ts, ¬(t.1 = id ∧ t.2.1 = q)) :
    lastWins ts id q = none := by
  rw [lastWins, List.filter_eq_nil_iff.mpr fun a ha => by simpa using h a ha]
  rfl

theorem lastWins_concat_match (ts : List (String × String × String))
    (id q out : String) :
    lastWins (ts ++ [(id, q, out)]) id q = some out := by
  rw [lastWins_append]
  have h : lastWins [(id, q, out)] id q = some out := by
    simp [lastWins, List.filter_cons]
  rw [h]
  rfl

theorem attachOutputs_append (exec : Nat → String → String) (i : Nat)
    (ps1 ps2 : List (String × String)) :
    attachOutputs exec i (ps1 ++ ps2) =
      attachOutputs exec i ps1 ++ attachOutputs exec (i + ps1.length) ps2 := by
  induction ps1 generalizing i with
  | nil => simp [attachOutputs]
  | cons p rest ih =>
      simp only [List.cons_append, attachOutputs, List.append_eq, ih,
        List.length_cons, List.cons.injEq, true_and]
      have h : i + 1 + rest.length = i + (rest.length + 1) := by omega
      rw [h]

theorem mem_of_getLast?_eq_some {α : Type} {l : List α} {x : α}
    (h : l.getLast? = some x) : x ∈ l := by
  have hx : x ∈ l.getLast? := Option.mem_def.mpr h
  rcases List.mem_getLast?_eq_getLast hx with ⟨hne, hEq⟩
  rw [hEq]
  exact List.getLast_mem hne

theorem lastWins_attach_last_occurrence (exec : Nat → String → String)
    (ps : List (String × String)) (id q : String) (j : Nat)
    (h1 : ps[j]? = some (id, q)) (h2 : ∀ k, j < k → ps[k]? ≠ some (id, q)) :
    lastWins (attachOutputs exec 0 ps) id q = some (exec j q) := by
  have hjlen : j < ps.length := by
    by_contra hc
    push_neg at hc
    rw [List.getElem?_eq_none hc] at h1
    exact Option.noConfusion h1
  have hsplit : ps = ps.take (j + 1) ++ ps.drop (j + 1) :=
    (List.take_append_drop _ _).symm
  have htlen : (ps.take (j + 1)).length = j + 1 := by
    rw [List.length_take]
    omega
  have hattach : attachOutputs exec 0 ps =
      attachOutputs exec 0 (ps.take (j + 1)) ++
        attachOutputs exec (0 + (ps.take (j + 1)).length) (ps.drop (j + 1)) := by
    conv_lhs => rw [hsplit]
    exact attachOutputs_append exec 0 _ _
  rw [hattach, lastWins_append]
  have hdrop : lastWins
      (attachOutputs exec (0 + (ps.take (j + 1)).length) (ps.drop (j + 1))) id q =
      none := by
    apply lastWins_eq_none_of_no_match
    intro t ht hmatch
    have hproj : (t.1, t.2.1) ∈ ps.drop (j + 1) := by
      have := List.mem_map_of_mem (fun t => (t.1, t.2.1)) ht
      rwa [attachOutputs_proj] at this
    rcases List.getElem?_of_mem hproj with ⟨n, hn⟩
    rw [List.getElem?_drop] at hn
    refine h2 (j + 1 + n) (by omega) ?_
    rw [hn, hmatch.1, hmatch.2]
  rw [hdrop, optOr_none]
  have htake : ps.take (j + 1) = ps.take j ++ [(id, q)] := by
    rw [List.take_succ, h1]
    rfl
  have hjtake : (ps.take j).length = j := by
    rw [List.length_take]
    omega
  rw [htake, attachOutputs_append]
  have hsingle : attachOutputs exec (0 + (ps.take j).length) [(id, q)] =
      [(id, q, exec j q)] := by
    rw [hjtake]
    simp [attachOutputs]
  rw [hsingle]
  exact lastWins_concat_match _ id q (exec j q)

theorem groupFind_inv (m : List (String × List (String × String))) (id q v : String)
    (h : groupFind m id q = some v) :
    ∃ inner, dictFind m id = some inner ∧ dictFind inner q = some v := by
  cases hf : dictFind m id with
  | none =>
      rw [groupFind, hf] at h
      exact Option.noConfusion h
  | some inner =>
      rw [groupFind, hf] at h
      exact ⟨inner, rfl, h⟩

/-- C10: a query string occurring more than once under one call-identifier
is dispatched once per occurrence (the invocation list has one entry per
flattened pair), but the emitted ToolResult holds a single entry for that
query whose value is the output of the last occurrence — given that index
`j` is the final occurrence of the pair, the emitted message for that
identifier maps the query to the batch output at position `j` — and
concretely a message with the same query twice dispatches two operations
yet yields a one-entry mapping holding only the second result. -/
theorem C10_duplicate_queries_last_wins (exec : Nat → String → String)
    (pre : List Message) (content : String) (calls : List ToolCall)
    (id q : String) (j : Nat)
    (h1 : (pairsOf calls)[j]? = some (id, q))
    (h2 : ∀ k, j < k → (pairsOf calls)[k]? ≠ some (id, q)) :
    ((gatherInvocations calls).2.length = (pairsOf calls).length) ∧
    (∃ mg ∈ execute_tools exec (pre ++ [Message.ai content calls]),
      toolCallIdOf mg = id ∧ dictFind (toolContentOf mg) q = some (exec j q)) ∧
    (execute_tools (fun i _ => toString i)
        [Message.ai "" [⟨"a", ["q", "q"]⟩]] = [Message.tool [("q", "1")] "a"] ∧
      (gatherInvocations [(⟨"a", ["q", "q"]⟩ : ToolCall)]).2.length = 2) := by
  have hstate : (pre ++ [Message.ai content calls]).getLastD (Message.human "") =
      Message.ai content calls := List.getLastD_concat _ _ _
  have hexec : execute_tools exec (pre ++ [Message.ai content calls]) =
      (groupOutputs (attachOutputs exec 0 (pairsOf calls))).map
        fun e => Message.tool e.2 e.1 := by
    rw [execute_tools_eq, hstate]
    rfl
  refine ⟨?_, ?_, by decide, by decide⟩
  · rw [gatherInvocations_eq]
    simp
  · have hlw : lastWins (attachOutputs exec 0 (pairsOf calls)) id q =
        some (exec j q) :=
      lastWins_attach_last_occurrence exec (pairsOf calls) id q j h1 h2
    have hgf : groupFind (groupOutputs (attachOutputs exec 0 (pairsOf calls))) id q =
        some (exec j q) := by
      rw [groupFind_groupOutputs]
      exact hlw
    obtain ⟨inner, hfi, hfq⟩ := groupFind_inv _ _ _ _ hgf
    have hmem : (id, inner) ∈ groupOutputs (attachOutputs exec 0 (pairsOf calls)) :=
      mem_of_dictFind_eq_some _ _ _ hfi
    refine ⟨Message.tool inner id, ?_, rfl, hfq⟩
    rw [hexec]
    exact List.mem_map_of_mem _ hmem

/-! ### C8: per-operation failure isolation (spec-modelled batch) -/

theorem foldl_groupStepIsolated_eq (ts : List (String × String × Option String))
    (m : List (String × List (String × String))) :
    ts.foldl groupStepIsolated m = (successes ts).foldl groupStep m := by
  induction ts generalizing m with
  | nil => rfl
  | cons t ts ih =>
      obtain ⟨tid, tq, tout⟩ := t
      cases tout with
      | none =>
          simp only [List.foldl_cons, successes, List.filterMap_cons,
            Option.map_none', groupStepIsolated]
          exact ih m
      | some out =>
          simp only [List.foldl_cons, successes, List.filterMap_cons,
            Option.map_some', groupStepIsolated]
          exact ih _

theorem groupOutputsIsolated_eq (ts : List (String × String × Option String)) :
    groupOutputsIsolated ts = groupOutputs (successes ts) := by
  rw [groupOutputsIsolated, groupOutputs, foldl_groupStepIsolated_eq]

theorem attachOutputsIsolated_getElem? (exec : Nat → String → Option String)
    (i j : Nat) (ps : List (String × String)) :
    (attachOutputsIsolated exec i ps)[j]? =
      (ps[j]?).map (fun p => (p.1, p.2, exec (i + j) p.2)) := by
  induction ps generalizing i j with
  | nil => simp [attachOutputsIsolated]
  | cons p rest ih =>
      cases j with
      | zero => simp [attachOutputsIsolated]
      | succ j =>
          simp only [attachOutputsIsolated, List.getElem?_cons_succ, ih]
          have h : i + 1 + j = i + (j + 1) := by omega
          rw [h]

theorem triplesIsolated_eq (exec : Nat → String → Option String)
    (ps : List (String × String)) (i : Nat) :
    (((ps.map Prod.fst).zip
        ((ps.map fun p => ({ tool := tavilyToolName, tool_input := p.2 } : ToolInvocation)).zip
          (runBatchIsolated exec i
            (ps.map fun p => { tool := tavilyToolName, tool_input := p.2 })))).map
      fun t => (t.1, t.2.1.tool_input, t.2.2)) = attachOutputsIsolated exec i ps := by
  induction ps generalizing i with
  | nil => rfl
  | cons p rest ih => simp [runBatchIsolated, attachOutputsIsolated, ih]

theorem execute_tools_isolated_eq (exec : Nat → String → Option String)
    (state : List Message) :
    execute_tools_isolated exec state =
      (groupOutputs
        (successes
          (attachOutputsIsolated exec 0
            (pairsOf (toolCallsOf (state.getLastD (Message.human ""))))))).map
        fun e => Message.tool e.2 e.1 := by
  rw [execute_tools_isolated, gatherInvocations_eq]
  rw [triplesIsolated_eq, groupOutputsIsolated_eq]

theorem lastWins_eq_some_inv (ts : List (String × String × String)) (id q v : String)
    (h : lastWins ts id q = some v) :
    ∃ t ∈ ts, t.1 = id ∧ t.2.1 = q ∧ t.2.2 = v := by
  rw [lastWins] at h
  cases hg : (ts.filter fun t => t.1 == id && t.2.1 == q).getLast? with
  | none =>
      rw [hg] at h
      exact Option.noConfusion h
  | some t =>
      rw [hg] at h
      have hv : t.2.2 = v := by simpa using h
      have hmem := mem_of_getLast?_eq_some hg
      rcases List.mem_filter.mp hmem with ⟨hts, hp⟩
      have hp' : t.1 = id ∧ t.2.1 = q := by simpa using hp
      exact ⟨t, hts, hp'.1, hp'.2, hv⟩

theorem mem_successes_of_some (ts : List (String × String × Option String))
    (id q r : String) (h : (id, q, some r) ∈ ts) : (id, q, r) ∈ successes ts :=
  List.mem_filterMap.mpr ⟨(id, q, some r), h, rfl⟩

theorem mem_successes_inv (ts : List (String × String × Option String))
    (t : String × String × String) (h : t ∈ successes ts) :
    (t.1, t.2.1, some t.2.2) ∈ ts := by
  rcases List.mem_filterMap.mp h with ⟨a, ha, hf⟩
  cases hout : a.2.2 with
  | none =>
      rw [hout] at hf
      exact Option.noConfusion hf
  | some out =>
      rw [hout] at hf
      have ht : (a.1, a.2.1, out) = t := by simpa using hf
      rw [← ht, ← hout]
      simpa using ha

/-- C8: under the per-operation isolation policy the spec prescribes for the
batch executor, a failing lookup neither aborts the batch nor loses sibling
results — for every dispatched pair whose lookup succeeds, the emitted
ToolResult of its identifier contains that query as a key, bound to the
output of a successful dispatch of the same (identifier, query) pair; when
that pair is dispatched exactly once, the value is exactly that operation's
own result. -/
theorem C8_partial_failure_isolation (exec : Nat → String → Option String)
    (pre : List Message) (content : String) (calls : List ToolCall)
    (id q r : String) (j : Nat)
    (h1 : (pairsOf calls)[j]? = some (id, q))
    (h2 : exec j q = some r) :
    ∃ mg ∈ execute_tools_isolated exec (pre ++ [Message.ai content calls]),
      toolCallIdOf mg = id ∧
      (∃ r' k, dictFind (toolContentOf mg) q = some r' ∧
        (pairsOf calls)[k]? = some (id, q) ∧ exec k q = some r') ∧
      ((∀ k, k ≠ j → (pairsOf calls)[k]? ≠ some (id, q)) →
        dictFind (toolContentOf mg) q = some r) := by
  have hstate : (pre ++ [Message.ai content calls]).getLastD (Message.human "") =
      Message.ai content calls := List.getLastD_concat _ _ _
  have hexec : execute_tools_isolated exec (pre ++ [Message.ai content calls]) =
      (groupOutputs (successes (attachOutputsIsolated exec 0 (pairsOf calls)))).map
        fun e => Message.tool e.2 e.1 := by
    rw [execute_tools_isolated_eq, hstate]
    rfl
  have hAj : (attachOutputsIsolated exec 0 (pairsOf calls))[j]? =
      some (id, q, some r) := by
    rw [attachOutputsIsolated_getElem?, h1]
    simp [h2]
  have htrip : (id, q, some r) ∈ attachOutputsIsolated exec 0 (pairsOf calls) :=
    List.getElem?_mem hAj
  have hsucc : (id, q, r) ∈ successes (attachOutputsIsolated exec 0 (pairsOf calls)) :=
    mem_successes_of_some _ _ _ _ htrip
  have hisSome :
      (lastWins (successes (attachOutputsIsolated exec 0 (pairsOf calls))) id q).isSome :=
    (lastWins_isSome_iff _ _ _).mpr ⟨(id, q, r), hsucc, rfl, rfl⟩
  obtain ⟨v, hv⟩ := Option.isSome_iff_exists.mp hisSome
  obtain ⟨t, hts, ht1, ht2, ht3⟩ := lastWins_eq_some_inv _ _ _ _ hv
  have htA : (t.1, t.2.1, some t.2.2) ∈ attachOutputsIsolated exec 0 (pairsOf calls) :=
    mem_successes_inv _ _ hts
  obtain ⟨k, hk⟩ := List.getElem?_of_mem htA
  rw [attachOutputsIsolated_getElem?] at hk
  obtain ⟨p, hpk, hpe⟩ : ∃ p, (pairsOf calls)[k]? = some p ∧
      (p.1, p.2, exec (0 + k) p.2) = (t.1, t.2.1, some t.2.2) := by
    cases hp : (pairsOf calls)[k]? with
    | none =>
        rw [hp] at hk
        exact Option.noConfusion hk
    | some p =>
        rw [hp] at hk
        exact ⟨p, rfl, by simpa using hk⟩
  have hp1 : p.1 = id := by rw [ht1] at hpe; exact congrArg (fun x => x.1) hpe
  have hp2 : p.2 = q := by
    rw [ht2] at hpe
    exact congrArg (fun x => x.2.1) hpe
  have hpk' : (pairsOf calls)[k]? = some (id, q) := by
    rw [hpk, ← hp1, ← hp2]
  have hexeck : exec k q = some v := by
    have h5 := congrArg (fun x => x.2.2) hpe
    simp only at h5
    rw [hp2, Nat.zero_add, ht3] at h5
    exact h5
  have hgf : groupFind
      (groupOutputs (successes (attachOutputsIsolated exec 0 (pairsOf calls)))) id q =
      some v := by
    rw [groupFind_groupOutputs]
    exact hv
  obtain ⟨inner, hfi, hfq⟩ := groupFind_inv _ _ _ _ hgf
  have hmem : (id, inner) ∈
      groupOutputs (successes (attachOutputsIsolated exec 0 (pairsOf calls))) :=
    mem_of_dictFind_eq_some _ _ _ hfi
  refine ⟨Message.tool inner id, ?_, rfl, ⟨v, k, hfq, hpk', hexeck⟩, ?_⟩
  · rw [hexec]
    exact List.mem_map_of_mem _ hmem
  · intro huniq
    have hkj : k = j := by
      by_contra hne
      exact huniq k hne hpk'
    have hvr : v = r := by
      rw [hkj] at hexeck
      rw [hexeck] at h2
      exact (Option.some.injEq _ _).mp h2
    show dictFind inner q = some r
    rw [hfq, hvr]

/-- C8 counterexample: in a batch where the pair ("a","q") is dispatched
twice, both occurrences succeed with different results, and a sibling
operation ("b","x") fails, the batch is not aborted, yet the first
successful operation's result "r0" appears in no emitted mapping — the
later duplicate overwrites it — so the claim "every successful operation's
result still appears in its identifier's ToolResult mapping" is false as
literally stated. -/
theorem C8_counterexample_overwritten_success :
    ((fun i (_ : String) =>
        if i = 0 then some "r0" else if i = 1 then some "r1" else none) 0 "q" =
      some "r0") ∧
    execute_tools_isolated
        (fun i _ => if i = 0 then some "r0" else if i = 1 then some "r1" else none)
        [Message.ai "" [⟨"a", ["q", "q"]⟩, ⟨"b", ["x"]⟩]] =
      [Message.tool [("q", "r1")] "a"] ∧
    ¬ ∃ mg ∈ execute_tools_isolated
          (fun i _ => if i = 0 then some "r0" else if i = 1 then some "r1" else none)
          [Message.ai "" [⟨"a", ["q", "q"]⟩, ⟨"b", ["x"]⟩]],
        dictFind (toolContentOf mg) "q" = some "r0" :=
  ⟨rfl, by decide, by decide⟩

/-- Witness for C8: identifier "a" issues "q1" (which fails) and "q2"
(which succeeds); the emitted ToolResult for "a" still carries the result
of "q2". -/
theorem C8_partial_failure_isolation_witness :
    ∃ mg ∈ execute_tools_isolated
        (fun i _ => if i = 1 then some "r2" else none)
        ([] ++ [Message.ai "" [⟨"a", ["q1", "q2"]⟩]]),
      toolCallIdOf mg = "a" ∧
      (∃ r' k, dictFind (toolContentOf mg) "q2" = some r' ∧
        (pairsOf [(⟨"a", ["q1", "q2"]⟩ : ToolCall)])[k]? = some ("a", "q2") ∧
        (if k = 1 then some "r2" else none) = some r') ∧
      ((∀ k, k ≠ 1 →
          (pairsOf [(⟨"a", ["q1", "q2"]⟩ : ToolCall)])[k]? ≠ some ("a", "q2")) →
        dictFind (toolContentOf mg) "q2" = some "r2") :=
  C8_partial_failure_isolation (fun i _ => if i = 1 then some "r2" else none)
    [] "" [⟨"a", ["q1", "q2"]⟩] "a" "q2" "r2" 1 (by decide) (by decide)

/-- Witness for C10: with the query "q" issued twice under identifier "a"
and the batch answering position `i` with `toString i`, the emitted mapping
holds the result of the last occurrence. -/
theorem C10_duplicate_queries_last_wins_witness :
    ∃ mg ∈ execute_tools (fun i _ => toString i)
        ([] ++ [Message.ai "" [⟨"a", ["q", "q"]⟩]]),
      toolCallIdOf mg = "a" ∧ dictFind (toolContentOf mg) "q" = some (toString 1) :=
  (C10_duplicate_queries_last_wins (fun i _ => toString i) [] ""
    [⟨"a", ["q", "q"]⟩] "a" "q" 1 (by decide)
    (fun k hk => by
      rw [List.getElem?_eq_none (by simp [pairsOf]; omega)]
      simp)).2.1

/-! ### The retrying responder: bounds, frame, propagation -/

theorem Heap.get_alloc (h : Heap) (c : List Message) :
    (h.alloc c).1.get (h.alloc c).2 = c := by
  simp [Heap.alloc, Heap.get, List.getElem?_concat_length]

theorem respondLoop_attempts_le (client : Client) (validator : Validator)
    (attempt fuel : Nat) (h : Heap) (ref : Nat) (resp : Option Message) :
    (respondLoop client validator attempt fuel h ref resp).attempts ≤ attempt + fuel := by
  induction fuel generalizing attempt h ref resp with
  | zero => simp [respondLoop]
  | succ fuel ih =>
      cases hc : client attempt (h.get ref) with
      | exn b e =>
          cases b with
          | true =>
              simp only [respondLoop, hc]
              have := ih (attempt + 1)
                (h.alloc (h.get ref ++ [validationFeedback e])).1
                (h.alloc (h.get ref ++ [validationFeedback e])).2 resp
              omega
          | false =>
              simp only [respondLoop, hc]
              omega
      | ok r =>
          cases hv : validator r with
          | none =>
              simp only [respondLoop, hc, hv]
              omega
          | some e =>
              simp only [respondLoop, hc, hv]
              have := ih (attempt + 1)
                (h.alloc (h.get ref ++ [validationFeedback e])).1
                (h.alloc (h.get ref ++ [validationFeedback e])).2 (some r)
              omega

theorem respondLoop_heap_extension (client : Client) (validator : Validator)
    (attempt fuel : Nat) (h : Heap) (ref : Nat) (resp : Option Message) :
    ∃ extra, (respondLoop client validator attempt fuel h ref resp).heap.cells =
      h.cells ++ extra := by
  induction fuel generalizing attempt h ref resp with
  | zero => exact ⟨[], by simp [respondLoop]⟩
  | succ fuel ih =>
      cases hc : client attempt (h.get ref) with
      | exn b e =>
          cases b with
          | true =>
              simp only [respondLoop, hc]
              obtain ⟨extra, hx⟩ := ih (attempt + 1)
                (h.alloc (h.get ref ++ [validationFeedback e])).1
                (h.alloc (h.get ref ++ [validationFeedback e])).2 resp
              refine ⟨[h.get ref ++ [validationFeedback e]] ++ extra, ?_⟩
              rw [hx]
              simp [Heap.alloc]
          | false =>
              simp only [respondLoop, hc]
              exact ⟨[], by simp⟩
      | ok r =>
          cases hv : validator r with
          | none =>
              simp only [respondLoop, hc, hv]
              exact ⟨[], by simp⟩
          | some e =>
              simp only [respondLoop, hc, hv]
              obtain ⟨extra, hx⟩ := ih (attempt + 1)
                (h.alloc (h.get ref ++ [validationFeedback e])).1
                (h.alloc (h.get ref ++ [validationFeedback e])).2 (some r)
              refine ⟨[h.get ref ++ [validationFeedback e]] ++ extra, ?_⟩
              rw [hx]
              simp [Heap.alloc]

/-- C4: failed validation attempts leave the caller's Conversation
unchanged — the synthetic Human feedback message is appended only to a
freshly allocated local copy, so after `respond` returns, every
pre-existing heap cell (in particular the caller's list object) is exactly
what it was before the call, for every behaviour of the client and the
validator. -/
theorem C4_respond_caller_conversation_unchanged (client : Client)
    (validator : Validator) (h : Heap) (ref : Nat) :
    ((respond client validator h ref).heap.cells.take h.cells.length = h.cells) ∧
    (ref < h.cells.length →
      (respond client validator h ref).heap.get ref = h.get ref) := by
  obtain ⟨extra, hx⟩ := respondLoop_heap_extension client validator 0 3 h ref none
  constructor
  · rw [respond, hx]
    exact List.take_left _ _
  · intro href
    rw [respond]
    rw [Heap.get, Heap.get, hx, List.getElem?_append_left href]

/-- Witness for C4: a concrete heap with one caller cell is untouched by a
`respond` call whose two first attempts fail validation. -/
theorem C4_respond_caller_conversation_unchanged_witness :
    (respond (fun n _ => CallOutcome.ok (Message.ai (toString n) []))
        (fun mg => if mg = Message.ai "2" [] then none else some "bad")
        ⟨[[Message.human "task"]]⟩ 0).heap.get 0 =
      Heap.get ⟨[[Message.human "task"]]⟩ 0 :=
  (C4_respond_caller_conversation_unchanged
    (fun n _ => CallOutcome.ok (Message.ai (toString n) []))
    (fun mg => if mg = Message.ai "2" [] then none else some "bad")
    ⟨[[Message.human "task"]]⟩ 0).2 (by decide)

/-- C3: `respond` makes at most 3 attempts; an attempt whose structured
output passes validation returns that response immediately — shown for a
success on the first attempt (one invocation made), on the second attempt
after one validation failure (two invocations made), and on the third
attempt after two validation failures (three invocations made, the spec's
invalid-twice-then-valid scenario) — and when all 3 attempts fail
validation it returns the last invalid response as an ordinary value —
`Except.ok`, not an exception — after exactly 3 attempts. -/
theorem C3_retry_bounded_best_effort :
    (∀ (client : Client) (validator : Validator) (h : Heap) (ref : Nat),
      (respond client validator h ref).attempts ≤ 3) ∧
    (∀ (client : Client) (validator : Validator) (h : Heap) (ref : Nat)
        (r : Message),
      client 0 (h.get ref) = CallOutcome.ok r → validator r = none →
      (respond client validator h ref).result = Except.ok (some r) ∧
      (respond client validator h ref).attempts = 1) ∧
    (∀ (client : Client) (validator : Validator) (h : Heap) (ref : Nat)
        (r0 r1 : Message) (e0 : String),
      client 0 (h.get ref) = CallOutcome.ok r0 → validator r0 = some e0 →
      client 1 (h.get ref ++ [validationFeedback e0]) = CallOutcome.ok r1 →
      validator r1 = none →
      (respond client validator h ref).result = Except.ok (some r1) ∧
      (respond client validator h ref).attempts = 2) ∧
    (∀ (client : Client) (validator : Validator) (h : Heap) (ref : Nat)
        (r0 r1 r2 : Message) (e0 e1 : String),
      client 0 (h.get ref) = CallOutcome.ok r0 → validator r0 = some e0 →
      client 1 (h.get ref ++ [validationFeedback e0]) = CallOutcome.ok r1 →
      validator r1 = some e1 →
      client 2 (h.get ref ++ [validationFeedback e0] ++ [validationFeedback e1]) =
        CallOutcome.ok r2 →
      validator r2 = none →
      (respond client validator h ref).result = Except.ok (some r2) ∧
      (respond client validator h ref).attempts = 3) ∧
    (∀ (client : Client) (validator : Validator) (h : Heap) (ref : Nat)
        (r0 r1 r2 : Message) (e0 e1 e2 : String),
      client 0 (h.get ref) = CallOutcome.ok r0 → validator r0 = some e0 →
      client 1 (h.get ref ++ [validationFeedback e0]) = CallOutcome.ok r1 →
      validator r1 = some e1 →
      client 2 (h.get ref ++ [validationFeedback e0] ++ [validationFeedback e1]) =
        CallOutcome.ok r2 →
      validator r2 = some e2 →
      (respond client validator h ref).result = Except.ok (some r2) ∧
      (respond client validator h ref).attempts = 3) := by
  refine ⟨?_, ?_, ?_, ?_, ?_⟩
  · intro client validator h ref
    have := respondLoop_attempts_le client validator 0 3 h ref none
    simpa [respond] using this
  · intro client validator h ref r h0 hval
    constructor <;> simp [respond, respondLoop, h0, hval]
  · intro client validator h ref r0 r1 e0 h0 hv0 h1 hv1
    constructor <;>
      simp [respond, respondLoop, h0, hv0, Heap.get_alloc, h1, hv1]
  · intro client validator h ref r0 r1 r2 e0 e1 h0 hv0 h1 hv1 h2 hv2
    simp only [List.append_assoc, List.singleton_append] at h2
    constructor <;>
      simp [respond, respondLoop, h0, hv0, Heap.get_alloc, h1, hv1, h2, hv2]
  · intro client validator h ref r0 r1 r2 e0 e1 e2 h0 hv0 h1 hv1 h2 hv2
    simp only [List.append_assoc, List.singleton_append] at h2
    constructor <;>
      simp [respond, respondLoop, h0, hv0, Heap.get_alloc, h1, hv1, h2, hv2]

/-- Witness for C3: a stub that returns invalid output twice and valid
output on the third call makes `respond` return the valid response after
exactly 3 attempts, and a stub that always returns invalid output makes
`respond` return the third (invalid) response as a value after exactly 3
attempts. -/
theorem C3_retry_bounded_best_effort_witness :
    ((respond (fun n _ => CallOutcome.ok (Message.ai (toString n) []))
        (fun mg => if mg = Message.ai "2" [] then none else some "bad")
        ⟨[[]]⟩ 0).result = Except.ok (some (Message.ai "2" [])) ∧
      (respond (fun n _ => CallOutcome.ok (Message.ai (toString n) []))
        (fun mg => if mg = Message.ai "2" [] then none else some "bad")
        ⟨[[]]⟩ 0).attempts = 3) ∧
    ((respond (fun n _ => CallOutcome.ok (Message.ai (toString n) []))
        (fun _ => some "bad") ⟨[[]]⟩ 0).result =
      Except.ok (some (Message.ai (toString 2) [])) ∧
      (respond (fun n _ => CallOutcome.ok (Message.ai (toString n) []))
        (fun _ => some "bad") ⟨[[]]⟩ 0).attempts = 3) :=
  ⟨C3_retry_bounded_best_effort.2.2.2.1
    (fun n _ => CallOutcome.ok (Message.ai (toString n) []))
    (fun mg => if mg = Message.ai "2" [] then none else some "bad")
    ⟨[[]]⟩ 0
    (Message.ai "0" []) (Message.ai "1" []) (Message.ai "2" [])
    "bad" "bad" rfl rfl rfl rfl rfl rfl,
   C3_retry_bounded_best_effort.2.2.2.2
    (fun n _ => CallOutcome.ok (Message.ai (toString n) []))
    (fun _ => some "bad") ⟨[[]]⟩ 0
    (Message.ai "0" []) (Message.ai "1" []) (Message.ai "2" [])
    "bad" "bad" "bad" rfl rfl rfl rfl rfl rfl⟩

/-- C9: only schema validation errors are retried — an exception of any
other kind raised while invoking the model completion client propagates
uncaught through `respond` (an `Except.error`, failing the whole run)
on the very attempt where it occurs, with no further attempts: shown for a
backend error on the first, second and third attempt. -/
theorem C9_non_validation_errors_propagate :
    (∀ (client : Client) (validator : Validator) (h : Heap) (ref : Nat)
        (e : String),
      client 0 (h.get ref) = CallOutcome.exn false e →
      (respond client validator h ref).result = Except.error e ∧
      (respond client validator h ref).attempts = 1) ∧
    (∀ (client : Client) (validator : Validator) (h : Heap) (ref : Nat)
        (r0 : Message) (e0 e : String),
      client 0 (h.get ref) = CallOutcome.ok r0 → validator r0 = some e0 →
      client 1 (h.get ref ++ [validationFeedback e0]) = CallOutcome.exn false e →
      (respond client validator h ref).result = Except.error e ∧
      (respond client validator h ref).attempts = 2) ∧
    (∀ (client : Client) (validator : Validator) (h : Heap) (ref : Nat)
        (r0 r1 : Message) (e0 e1 e : String),
      client 0 (h.get ref) = CallOutcome.ok r0 → validator r0 = some e0 →
      client 1 (h.get ref ++ [validationFeedback e0]) = CallOutcome.ok r1 →
      validator r1 = some e1 →
      client 2 (h.get ref ++ [validationFeedback e0] ++ [validationFeedback e1]) =
        CallOutcome.exn false e →
      (respond client validator h ref).result = Except.error e ∧
      (respond client validator h ref).attempts = 3) := by
  refine ⟨?_, ?_, ?_⟩
  · intro client validator h ref e h0
    constructor <;> simp [respond, respondLoop, h0]
  · intro client validator h ref r0 e0 e h0 hv0 h1
    constructor <;> simp [respond, respondLoop, h0, hv0, Heap.get_alloc, h1]
  · intro client validator h ref r0 r1 e0 e1 e h0 hv0 h1 hv1 h2
    simp only [List.append_assoc, List.singleton_append] at h2
    constructor <;>
      simp [respond, respondLoop, h0, hv0, Heap.get_alloc, h1, hv1, h2]

/-- Witness for C9: a backend error on the very first attempt propagates as
the result of `respond` with a single invocation made. -/
theorem C9_non_validation_errors_propagate_witness :
    (respond (fun _ _ => CallOutcome.exn false "boom") (fun _ => none)
        ⟨[[]]⟩ 0).result = Except.error "boom" ∧
    (respond (fun _ _ => CallOutcome.exn false "boom") (fun _ => none)
        ⟨[[]]⟩ 0).attempts = 1 :=
  C9_non_validation_errors_propagate.1
    (fun _ _ => CallOutcome.exn false "boom") (fun _ => none) ⟨[[]]⟩ 0 "boom" rfl

/-! ### C5: the graph terminates for every backend behaviour -/

theorem numIterations_eq_takeWhile (state : List Message) :
    _get_num_iterations state = (state.reverse.takeWhile isGenerated).length := by
  rw [_get_num_iterations, numIterationsGo_eq]
  omega

theorem numIterations_append_generated (c gens : List Message)
    (h : ∀ m ∈ gens, isGenerated m = true) :
    _get_num_iterations (c ++ gens) = _get_num_iterations c + gens.length := by
  rw [numIterations_eq_takeWhile, numIterations_eq_takeWhile, List.reverse_append,
    takeWhile_append_of_all isGenerated gens.reverse c.reverse
      (fun x hx => h x (List.mem_reverse.mp hx)),
    List.length_append, List.length_reverse]
  omega

theorem execute_tools_all_generated (exec : Nat → String → String)
    (state : List Message) :
    ∀ m ∈ execute_tools exec state, isGenerated m = true := by
  intro m hm
  rw [execute_tools_eq] at hm
  rcases List.mem_map.mp hm with ⟨e, _, rfl⟩
  rfl

theorem graphStep_terminated (o : Oracle) (n : Nat) (c : List Message) :
    (graphStep o)^[n] (Node.terminated, c) = (Node.terminated, c) := by
  induction n with
  | zero => rfl
  | succ n ih =>
      rw [Function.iterate_succ_apply]
      exact ih

theorem revise_phase_terminates (o : Oracle) (k : Nat) :
    ∀ c : List Message, 5 ≤ _get_num_iterations c + k →
      ((graphStep o)^[2 * k + 1] (Node.revise, c)).1 = Node.terminated := by
  induction k with
  | zero =>
      intro c hc
      have hd : _get_num_iterations
          (c ++ [Message.ai (o.reviseContent c) (o.reviseCalls c)]) =
          _get_num_iterations c + 1 := by
        rw [numIterations_append_generated]
        · rfl
        · intro m hm
          rcases List.mem_singleton.mp hm with rfl
          rfl
      have hgt : MAX_ITERATIONS <
          _get_num_iterations (c ++ [Message.ai (o.reviseContent c) (o.reviseCalls c)]) := by
        rw [hd]
        show (5 : Nat) < _get_num_iterations c + 1
        omega
      have hEv : event_loop (c ++ [Message.ai (o.reviseContent c) (o.reviseCalls c)]) =
          NextNode.END := by
        simp [event_loop, hgt]
      rw [show 2 * 0 + 1 = 1 from rfl, Function.iterate_one]
      simp [graphStep, hEv]
  | succ k ih =>
      intro c hc
      rw [show 2 * (k + 1) + 1 = (2 * k + 1) + 2 from by omega,
        Function.iterate_add_apply]
      cases hEv : event_loop (c ++ [Message.ai (o.reviseContent c) (o.reviseCalls c)]) with
      | END =>
          have hstep : graphStep o (Node.revise, c) =
              (Node.terminated, c ++ [Message.ai (o.reviseContent c) (o.reviseCalls c)]) := by
            simp [graphStep, hEv]
          have h2step : (graphStep o)^[2] (Node.revise, c) =
              (Node.terminated, c ++ [Message.ai (o.reviseContent c) (o.reviseCalls c)]) := by
            rw [show (2 : Nat) = 1 + 1 from rfl, Function.iterate_add_apply,
              Function.iterate_one, hstep]
            rfl
          rw [h2step]
          rw [graphStep_terminated]
      | execute_tools =>
          have hstep : graphStep o (Node.revise, c) =
              (Node.execute_tools, c ++ [Message.ai (o.reviseContent c) (o.reviseCalls c)]) := by
            simp [graphStep, hEv]
          have h2step : (graphStep o)^[2] (Node.revise, c) =
              (Node.revise,
                (c ++ [Message.ai (o.reviseContent c) (o.reviseCalls c)]) ++
                  execute_tools
                    (o.search (c ++ [Message.ai (o.reviseContent c) (o.reviseCalls c)]))
                    (c ++ [Message.ai (o.reviseContent c) (o.reviseCalls c)])) := by
            rw [show (2 : Nat) = 1 + 1 from rfl, Function.iterate_add_apply,
              Function.iterate_one, hstep]
            rfl
          rw [h2step]
          apply ih
          have hd1 : _get_num_iterations
              (c ++ [Message.ai (o.reviseContent c) (o.reviseCalls c)]) =
              _get_num_iterations c + 1 := by
            rw [numIterations_append_generated]
            · rfl
            · intro m hm
              rcases List.mem_singleton.mp hm with rfl
              rfl
          have hd2 : _get_num_iterations
              ((c ++ [Message.ai (o.reviseContent c) (o.reviseCalls c)]) ++
                execute_tools
                  (o.search (c ++ [Message.ai (o.reviseContent c) (o.reviseCalls c)]))
                  (c ++ [Message.ai (o.reviseContent c) (o.reviseCalls c)])) =
              _get_num_iterations (c ++ [Message.ai (o.reviseContent c) (o.reviseCalls c)]) +
                (execute_tools
                  (o.search (c ++ [Message.ai (o.reviseContent c) (o.reviseCalls c)]))
                  (c ++ [Message.ai (o.reviseContent c) (o.reviseCalls c)])).length := by
            rw [numIterations_append_generated]
            exact execute_tools_all_generated _ _
          omega

/-- C5: for every behaviour of the generative backend and the search
collaborator — the responders and the search oracle may choose any tool
calls and any outputs at every step — a run of the compiled graph started
at `draft` reaches the terminated (`END`) state within a fixed number of
supersteps: each Draft/Revise step appends one generated Model message and
each ExecuteTools step appends only generated ToolResult messages, so the
iteration depth grows by at least one per cycle and exceeds the maximum 5
after at most 11 steps. -/
theorem C5_graph_always_terminates (o : Oracle) (c0 : List Message) :
    ((graphStep o)^[11] (Node.draft, c0)).1 = Node.terminated := by
  rw [show (11 : Nat) = 9 + 2 from rfl, Function.iterate_add_apply]
  have h2step : (graphStep o)^[2] (Node.draft, c0) =
      (Node.revise,
        (c0 ++ [Message.ai (o.draftContent c0) (o.draftCalls c0)]) ++
          execute_tools
            (o.search (c0 ++ [Message.ai (o.draftContent c0) (o.draftCalls c0)]))
            (c0 ++ [Message.ai (o.draftContent c0) (o.draftCalls c0)])) := by
    rw [show (2 : Nat) = 1 + 1 from rfl, Function.iterate_add_apply]
    rfl
  rw [h2step]
  have hd1 : _get_num_iterations
      (c0 ++ [Message.ai (o.draftContent c0) (o.draftCalls c0)]) =
      _get_num_iterations c0 + 1 := by
    rw [numIterations_append_generated]
    · rfl
    · intro m hm
      rcases List.mem_singleton.mp hm with rfl
      rfl
  have hd2 : _get_num_iterations
      ((c0 ++ [Message.ai (o.draftContent c0) (o.draftCalls c0)]) ++
        execute_tools
          (o.search (c0 ++ [Message.ai (o.draftContent c0) (o.draftCalls c0)]))
          (c0 ++ [Message.ai (o.draftContent c0) (o.draftCalls c0)])) =
      _get_num_iterations (c0 ++ [Message.ai (o.draftContent c0) (o.draftCalls c0)]) +
        (execute_tools
          (o.search (c0 ++ [Message.ai (o.draftContent c0) (o.draftCalls c0)]))
          (c0 ++ [Message.ai (o.draftContent c0) (o.draftCalls c0)])).length := by
    rw [numIterations_append_generated]
    exact execute_tools_all_generated _ _
  exact revise_phase_terminates o 4 _ (by omega)

end Reflexion
